import Mathlib

/-!
Verification development for the `f5router` route-to-load-balancer
controller core (`src/f5router/f5router.go`).  The Go code is shallowly
embedded: Go maps become association lists, pointer mutation becomes
value update, machine integers become `Nat`/`Int` with explicit
reduction modulo 2^32 where overflow matters, and fallible code returns
`Option`.
-/

set_option maxRecDepth 10000

/-! ## Bytes and SHA-256 (used by `makePoolName`) -/

/-- UTF-8 encoding of a single Unicode code point, as a list of byte values.
Mirrors the byte representation Go strings use. -/
def utf8EncodeChar (c : Nat) : List Nat :=
  if c < 0x80 then [c]
  else if c < 0x800 then
    [0xC0 + c / 0x40, 0x80 + c % 0x40]
  else if c < 0x10000 then
    [0xE0 + c / 0x1000, 0x80 + (c / 0x40) % 0x40, 0x80 + c % 0x40]
  else
    [0xF0 + c / 0x40000, 0x80 + (c / 0x1000) % 0x40, 0x80 + (c / 0x40) % 0x40,
     0x80 + c % 0x40]

/-- The UTF-8 bytes of a string, the byte sequence Go sees for `[]byte(s)`. -/
def utf8Bytes (s : String) : List Nat :=
  s.data.flatMap (fun c => utf8EncodeChar c.toNat)

/-- SHA-256 round constants (fractional parts of cube roots of the first
64 primes, FIPS 180-4). -/
def shaK : List Nat := [
  1116352408, 1899447441, 3049323471, 3921009573, 961987163, 1508970993, 2453635748, 2870763221,
  3624381080, 310598401, 607225278, 1426881987, 1925078388, 2162078206, 2614888103, 3248222580,
  3835390401, 4022224774, 264347078, 604807628, 770255983, 1249150122, 1555081692, 1996064986,
  2554220882, 2821834349, 2952996808, 3210313671, 3336571891, 3584528711, 113926993, 338241895,
  666307205, 773529912, 1294757372, 1396182291, 1695183700, 1986661051, 2177026350, 2456956037,
  2730485921, 2820302411, 3259730800, 3345764771, 3516065817, 3600352804, 4094571909, 275423344,
  430227734, 506948616, 659060556, 883997877, 958139571, 1322822218, 1537002063, 1747873779,
  1955562222, 2024104815, 2227730452, 2361852424, 2428436474, 2756734187, 3204031479, 3329325298
]

/-- SHA-256 initial hash values (fractional parts of square roots of the
first 8 primes, FIPS 180-4). -/
def shaH0 : List Nat := [
  1779033703, 3144134277, 1013904242, 2773480762, 1359893119, 2600822924, 528734635, 1541459225
]

/-- Right rotation of a 32-bit word. -/
def rotr32 (n x : Nat) : Nat :=
  ((x >>> n) ||| (x <<< (32 - n))) % 4294967296

/-- SHA-256 message-schedule sigma-0. -/
def ssig0 (x : Nat) : Nat := (rotr32 7 x) ^^^ (rotr32 18 x) ^^^ (x >>> 3)

/-- SHA-256 message-schedule sigma-1. -/
def ssig1 (x : Nat) : Nat := (rotr32 17 x) ^^^ (rotr32 19 x) ^^^ (x >>> 10)

/-- SHA-256 compression Sigma-0. -/
def bsig0 (x : Nat) : Nat := (rotr32 2 x) ^^^ (rotr32 13 x) ^^^ (rotr32 22 x)

/-- SHA-256 compression Sigma-1. -/
def bsig1 (x : Nat) : Nat := (rotr32 6 x) ^^^ (rotr32 11 x) ^^^ (rotr32 25 x)

/-- SHA-256 choose function. -/
def shaCh (x y z : Nat) : Nat := (x &&& y) ^^^ ((x ^^^ 4294967295) &&& z)

/-- SHA-256 majority function. -/
def shaMaj (x y z : Nat) : Nat := (x &&& y) ^^^ (x &&& z) ^^^ (y &&& z)

/-- Big-endian bytes (most significant first) of a value, `k` bytes wide. -/
def beBytes : Nat → Nat → List Nat
  | 0, _ => []
  | k + 1, n => (n >>> (8 * k)) % 256 :: beBytes k n

/-- Group a byte list into big-endian 32-bit words. -/
def words32 : List Nat → List Nat
  | b0 :: b1 :: b2 :: b3 :: rest =>
      (b0 <<< 24 ||| b1 <<< 16 ||| b2 <<< 8 ||| b3) :: words32 rest
  | _ => []

/-- SHA-256 padding: append 0x80, zeros, and the 64-bit bit length. -/
def shaPad (msg : List Nat) : List Nat :=
  let l := msg.length
  let padLen := (64 - ((l + 9) % 64)) % 64
  msg ++ [0x80] ++ List.replicate padLen 0 ++ beBytes 8 (8 * l)

/-- Extend the 16-word block to the 64-word message schedule. -/
def shaSchedule (block : List Nat) : Array Nat :=
  (List.range 48).foldl
    (fun w j =>
      let i := j + 16
      let v := (ssig1 (w.getD (i - 2) 0) + w.getD (i - 7) 0 +
                ssig0 (w.getD (i - 15) 0) + w.getD (i - 16) 0) % 4294967296
      w.push v)
    block.toArray

/-- One SHA-256 compression round. -/
def shaRound (kw : Nat × Nat) (st : List Nat) : List Nat :=
  match st with
  | [a, b, c, d, e, f, g, h] =>
      let t1 := (h + bsig1 e + shaCh e f g + kw.1 + kw.2) % 4294967296
      let t2 := (bsig0 a + shaMaj a b c) % 4294967296
      [(t1 + t2) % 4294967296, a, b, c, (d + t1) % 4294967296, e, f, g]
  | _ => st

/-- Process one 64-byte block, updating the running hash state. -/
def shaBlock (h : List Nat) (block : List Nat) : List Nat :=
  let w := shaSchedule (words32 block)
  let st := (List.range 64).foldl
    (fun st i => shaRound (shaK.getD i 0, w.getD i 0) st) h
  (h.zip st).map (fun p => (p.1 + p.2) % 4294967296)

/-- Helper for `chunks64`: accumulate the current chunk in reverse. -/
def chunks64Go (cur : List Nat) (n : Nat) : List Nat → List (List Nat)
  | [] => if cur = [] then [] else [cur.reverse]
  | b :: rest =>
      if n = 63 then (b :: cur).reverse :: chunks64Go [] 0 rest
      else chunks64Go (b :: cur) (n + 1) rest

/-- Split a list into chunks of 64 elements. -/
def chunks64 (l : List Nat) : List (List Nat) :=
  chunks64Go [] 0 l

/-- SHA-256 digest of a byte list, as 32 bytes. -/
def sha256 (msg : List Nat) : List Nat :=
  let hFinal := (chunks64 (shaPad msg)).foldl shaBlock shaH0
  hFinal.flatMap (beBytes 4)

/-- One lowercase hexadecimal digit. -/
def hexDigit (n : Nat) : Char :=
  if n < 10 then Char.ofNat (48 + n) else Char.ofNat (87 + n)

/-- Lowercase hexadecimal rendering of a byte list, two digits per byte,
as Go's `%x` verb prints a byte slice. -/
def hexOfBytes (bs : List Nat) : String :=
  String.mk (bs.flatMap (fun b => [hexDigit (b / 16 % 16), hexDigit (b % 16)]))

/-! ## `makePoolName` (f5router.go lines 518-524) -/

/-- Index of the first `'.'` in a character list; `none` models the `-1`
that Go's `strings.Index` returns when the byte is absent.  Since `'.'`
is ASCII it can only occur as a full character in UTF-8, so the first
`'.'` character position determines the same string prefix as the first
`'.'` byte position used by the Go code. -/
def strIndexDot : List Char → Option Nat
  | [] => none
  | c :: l => if c = '.' then some 0 else (strIndexDot l).map (· + 1)

/-- Translation of `makePoolName`: `uri[:index]` of the first `'.'`,
a dash, and the first 8 bytes of `SHA-256(uri)` in hex.  When the URI
has no `'.'`, `strings.Index` yields `-1` and the Go slice `uri[:-1]`
panics; that undefined case is modelled as `none`. -/
def makePoolName (uri : String) : Option String :=
  (strIndexDot uri.data).map fun i =>
    String.mk (uri.data.take i) ++ "-" ++ hexOfBytes ((sha256 (utf8Bytes uri)).take 8)

/-! ## Data model

Field sets are taken from the composite literals and field accesses in
`f5router.go` (the struct declarations themselves live in a types file of
the repository that is not under `src/`). -/

/-- Virtual-server type (f5router.go lines 45-50). -/
inductive vsType where
  | HTTP
  | HTTPS
deriving DecidableEq, Repr

/-- Work-item operation (f5router.go lines 40-43). -/
inductive operation where
  | add
  | remove
deriving DecidableEq, Repr

/-- Policy or profile reference, as built by `generateNameList`. -/
structure nameRef where
  name : String
  partition : String
deriving DecidableEq, Repr

/-- Virtual address block used by `makeVirtual`. -/
structure virtualAddress where
  bindAddr : String
  port : Int
deriving DecidableEq, Repr

/-- SSL profile block used by `makeVirtual`. -/
structure sslProfile where
  f5ProfileName : String
deriving DecidableEq, Repr

/-- Backend block of a route config (`makePool`, `processPoolAdd`). -/
structure backend where
  serviceName : String
  servicePort : Int
  poolMemberAddrs : List String
deriving DecidableEq, Repr

/-- Frontend block of a route config (`makePool`, `makeVirtual`). -/
structure frontend where
  name : String
  partition : String
  balance : String
  mode : String
  virtualAddress : Option virtualAddress
  sslProfile : Option sslProfile
  policies : List nameRef
  profiles : List nameRef
deriving DecidableEq, Repr

/-- Item of a route config. -/
structure routeItem where
  backend : backend
  frontend : frontend
deriving DecidableEq, Repr

/-- A pool or virtual-server record (`routeConfig` in the Go code). -/
structure routeConfig where
  item : routeItem
deriving DecidableEq, Repr

/-- Rule condition, fields as used in `makeRouteRule`. -/
structure condition where
  equals : Bool
  endsWith : Bool
  host : Bool
  httpHost : Bool
  httpUri : Bool
  pathSegment : Bool
  request : Bool
  name : String
  index : Nat
  values : List String
deriving DecidableEq, Repr

/-- Rule action, fields as used in `makeRouteRule`. -/
structure action where
  forward : Bool
  name : String
  pool : String
  request : Bool
deriving DecidableEq, Repr

/-- Policy rule; `ordinal` is assigned by `makeRoutePolicy` and defaults
to 0 on creation, like the Go zero value. -/
structure rule where
  fullURI : String
  actions : List action
  conditions : List condition
  name : String
  ordinal : Nat
deriving DecidableEq, Repr

/-- Forwarding policy, fields as built by `makeRoutePolicy`. -/
structure policy where
  controls : List String
  legacy : Bool
  name : String
  partition : String
  requires : List String
  rules : List rule
  strategy : String
deriving DecidableEq, Repr

/-- Pool work payload (`poolData`). -/
structure poolData where
  name : String
  uri : String
  endpoint : String
  wildcard : Bool
deriving DecidableEq, Repr

/-- Virtual-server work payload (`virtualData`). -/
structure virtualData where
  name : String
  t : vsType
deriving DecidableEq, Repr

/-- The two work payload variants carried by a work item. -/
inductive workData where
  | pool (p : poolData)
  | virt (v : virtualData)
deriving DecidableEq, Repr

/-- A queued work item (`workItem`). -/
structure workItem where
  op : operation
  data : workData
deriving DecidableEq, Repr

/-- Pre/post routing policy name lists from configuration. -/
structure bigIPPolicies where
  preRouting : List String
  postRouting : List String
deriving DecidableEq, Repr

/-- The BigIP section of the configuration (fields the router reads). -/
structure bigIPConfig where
  partitions : List String
  balance : String
  verifyInterval : Nat
  externalAddr : String
  sslProfile : String
  routePolicies : bigIPPolicies
  profiles : List String
deriving DecidableEq, Repr

/-- Logging section of the configuration. -/
structure loggingConfig where
  level : String
deriving DecidableEq, Repr

/-- The configuration held by reference in the router. -/
structure Config where
  logging : loggingConfig
  bigip : bigIPConfig
deriving DecidableEq, Repr

/-- The global section written into every emitted document. -/
structure GlobalSection where
  logLevel : String
  verifyInterval : Nat
deriving DecidableEq, Repr

/-- The state indices owned by the worker: `m` is `pools`
(`routeMap`), `r` is the exact rule index and `wildcards` the wildcard
rule index (`ruleMap`).  Go maps are modelled as association lists with
unique keys; `lookupA`/`replaceA`/`insertA`/`eraseA` below agree with Go
map semantics on such lists. -/
structure RouterSt where
  m : List (String × routeConfig)
  r : List (String × rule)
  wildcards : List (String × rule)
deriving DecidableEq, Repr

/-- The empty index state a fresh router starts from. -/
def emptySt : RouterSt := ⟨[], [], []⟩

/-! ## Association-list operations modelling Go map access -/

/-- Map lookup: first entry with the given key. -/
def lookupA {α : Type} : List (String × α) → String → Option α
  | [], _ => none
  | (k, v) :: l, key => if k = key then some v else lookupA l key

/-- Replace the value of the first entry with the given key (models
in-place mutation through the pointer returned by a map lookup). -/
def replaceA {α : Type} : List (String × α) → String → α → List (String × α)
  | [], _, _ => []
  | (k, v) :: l, key, v' =>
      if k = key then (k, v') :: l else (k, v) :: replaceA l key v'

/-- Map assignment `m[key] = v`: replace if present, else append. -/
def insertA {α : Type} (l : List (String × α)) (key : String) (v : α) :
    List (String × α) :=
  match lookupA l key with
  | some _ => replaceA l key v
  | none => l ++ [(key, v)]

/-- Map deletion `delete(m, key)`: remove the first entry with the key. -/
def eraseA {α : Type} : List (String × α) → String → List (String × α)
  | [], _ => []
  | (k, v) :: l, key => if k = key then l else (k, v) :: eraseA l key

/-- Key list of an association list. -/
def keysA {α : Type} (l : List (String × α)) : List String :=
  l.map Prod.fst

/-- Value list of an association list, as collected by `range` loops. -/
def valuesA {α : Type} (l : List (String × α)) : List α :=
  l.map Prod.snd

/-! ## URL parsing and rule construction (f5router.go lines 300-370) -/

/-- First partition of the configuration; the Go code indexes
`Partitions[0]` throughout (with FIXME comments), which panics on an
empty list — modelled as the empty string in that untaken case. -/
def part0 (c : Config) : String :=
  c.bigip.partitions.headD ""

/-- Result of parsing `scheme://host/path`. -/
structure parsedURL where
  host : String
  path : String
deriving DecidableEq, Repr

/-- Split a character list at the first `':'`, returning the parts
before and after it. -/
def splitColon : List Char → Option (List Char × List Char)
  | [] => none
  | c :: l =>
      if c = ':' then some ([], l)
      else (splitColon l).map (fun p => (c :: p.1, p.2))

/-- The host part of an authority: everything after the last `'@'`
(userinfo separator), i.e. the longest `'@'`-free tail. -/
def hostOfAuth (auth : List Char) : List Char :=
  ((auth.reverse.takeWhile (fun c => c ≠ '@'))).reverse

/-- Modelled from the spec: `net/url.Parse` is library code outside this
repository.  The model is restricted to the `scheme://authority/path`
shapes `makeRouteRule` produces: the scheme runs to the first `':'` and
must be followed by `"//"`, the authority runs to the next `/`, the
host is the authority after any userinfo `@`, and the path is the
remainder.  Query/fragment splitting and percent-decoding are not
modelled (route URIs carry neither); a space in the host models Go's
invalid-host-character parse error. -/
def urlParse (s : String) : Option parsedURL :=
  match splitColon s.data with
  | some (_scheme, '/' :: '/' :: after) =>
      let auth := after.takeWhile (fun c => c ≠ '/')
      let path := after.dropWhile (fun c => c ≠ '/')
      let host := hostOfAuth auth
      if host.any (fun c => c = ' ') then none
      else some ⟨String.mk host, String.mk path⟩
  | _ => none

/-- `strings.TrimSuffix(u, "/")`: drop one trailing slash if present. -/
def trimSuffixSlash (s : String) : String :=
  if s.data.getLast? = some '/' then String.mk s.data.dropLast else s

/-- Split a character list on `'/'`; like Go's `strings.Split`, the
empty list yields one empty part. -/
def splitOnSlash : List Char → List (List Char)
  | [] => [[]]
  | c :: l =>
      if c = '/' then [] :: splitOnSlash l
      else
        match splitOnSlash l with
        | g :: gs => (c :: g) :: gs
        | [] => [[c]]

/-- The path segments `makeRouteRule` iterates over: nothing for an
empty path, otherwise the path with one leading `/` stripped, split
on `/`. -/
def segmentsOfPath (path : String) : List String :=
  if path = "" then []
  else
    (splitOnSlash (match path.data with | '/' :: rest => rest | l => l)).map
      String.mk

/-- The host-equals condition emitted for a non-wildcard pool. -/
def hostEqCond (h : String) : condition :=
  { equals := true, endsWith := false, host := true, httpHost := true,
    httpUri := false, pathSegment := false, request := true,
    name := "0", index := 0, values := [h] }

/-- The host-ends-with condition emitted for a wildcard pool. -/
def hostEndCond (h : String) : condition :=
  { equals := false, endsWith := true, host := true, httpHost := true,
    httpUri := false, pathSegment := false, request := true,
    name := "0", index := 0, values := [h] }

/-- The path-segment condition for 1-based segment index `idx`. -/
def mkSegCond (idx : Nat) (v : String) : condition :=
  { equals := true, endsWith := false, host := false, httpHost := false,
    httpUri := true, pathSegment := true, request := true,
    name := toString idx, index := idx, values := [v] }

/-- The per-segment conditions: segment `i` (0-based) gets index `i+1`,
mirroring the `for i, v := range segments` loop. -/
def segConds : Nat → List String → List condition
  | _, [] => []
  | i, v :: rest => mkSegCond (i + 1) v :: segConds (i + 1) rest

/-- Translation of `makeRouteRule`: normalize the URI with a `scheme://`
prefix and one trailing slash trimmed, parse it, and build the
forwarding action plus the host/path conditions.  A parse failure is the
function's only error. -/
def makeRouteRule (c : Config) (p : poolData) : Option rule :=
  (urlParse (trimSuffixSlash ("scheme://" ++ p.uri))).map fun pu =>
    let act : action :=
      { forward := true, name := "0",
        pool := "/" ++ part0 c ++ "/" ++ p.name, request := true }
    let conds :=
      if p.wildcard then [hostEndCond pu.host]
      else hostEqCond pu.host :: segConds 0 (segmentsOfPath pu.path)
    { fullURI := p.uri, actions := [act], conditions := conds,
      name := p.name, ordinal := 0 }

/-! ## Pool and virtual-server record construction -/

/-- Translation of `makePool`: a pool-only record for the given name,
URI and endpoint addresses. -/
def makePool (c : Config) (name uri : String) (addrs : List String) :
    routeConfig :=
  { item :=
    { backend :=
      { serviceName := uri, servicePort := -1, poolMemberAddrs := addrs },
      frontend :=
      { name := name, partition := part0 c, balance := c.bigip.balance,
        mode := "http", virtualAddress := none, sslProfile := none,
        policies := [], profiles := [] } } }

/-- Translation of `makeVirtual`: HTTP binds port 80 without SSL, HTTPS
binds port 443 with the configured SSL profile. -/
def makeVirtual (c : Config) (name : String) (t : vsType) : routeConfig :=
  let port : Int := match t with | .HTTP => 80 | .HTTPS => 443
  let ssl : Option sslProfile :=
    match t with | .HTTP => none | .HTTPS => some ⟨c.bigip.sslProfile⟩
  { item :=
    { backend :=
      { serviceName := name, servicePort := -1, poolMemberAddrs := [] },
      frontend :=
      { name := name, partition := part0 c, balance := c.bigip.balance,
        mode := "http",
        virtualAddress := some ⟨c.bigip.externalAddr, port⟩,
        sslProfile := ssl, policies := [], profiles := [] } } }

/-! ## Worker mutations (f5router.go lines 425-516, 641-652) -/

/-- Translation of `processPoolAdd`.  The `for`/`break` duplicate scan
is membership in the endpoint list; the returned boolean is `ret`
(whether the indices changed). -/
def processPoolAdd (c : Config) (s : RouterSt) (p : poolData) :
    RouterSt × Bool :=
  match lookupA s.m p.name with
  | some pool =>
      if p.endpoint ∈ pool.item.backend.poolMemberAddrs then (s, false)
      else
        let pool' := { pool with
          item.backend.poolMemberAddrs :=
            pool.item.backend.poolMemberAddrs ++ [p.endpoint] }
        ({ s with m := replaceA s.m p.name pool' }, true)
  | none =>
      match makeRouteRule c p with
      | none => (s, false)
      | some rl =>
          let s1 :=
            if p.wildcard then { s with wildcards := insertA s.wildcards p.uri rl }
            else { s with r := insertA s.r p.uri rl }
          ({ s1 with m := insertA s1.m p.name (makePool c p.name p.uri [p.endpoint]) },
           true)

/-- Remove the first occurrence of a string from a list: the
`for`/`break` deletion loop in `processPoolRemove`. -/
def eraseFirstStr : List String → String → List String
  | [], _ => []
  | a :: l, x => if a = x then l else a :: eraseFirstStr l x

/-- Translation of `processPoolRemove`.  The removal loop erases the
first matching endpoint; `ret` is set to true whenever the pool record
exists, and when the endpoint list becomes empty the pool record is
deleted together with the rule keyed by `p.uri` in the index selected by
`p.wildcard`. -/
def processPoolRemove (s : RouterSt) (p : poolData) : RouterSt × Bool :=
  match lookupA s.m p.name with
  | none => (s, false)
  | some pool =>
      let addrs := eraseFirstStr pool.item.backend.poolMemberAddrs p.endpoint
      let pool' := { pool with item.backend.poolMemberAddrs := addrs }
      let s1 := { s with m := replaceA s.m p.name pool' }
      if addrs.length = 0 then
        let s2 := { s1 with m := eraseA s1.m p.name }
        if p.wildcard then ({ s2 with wildcards := eraseA s2.wildcards p.uri }, true)
        else ({ s2 with r := eraseA s2.r p.uri }, true)
      else (s1, true)

/-- Translation of `processVirtualAdd`. -/
def processVirtualAdd (c : Config) (s : RouterSt) (v : virtualData) :
    RouterSt × Bool :=
  ({ s with m := insertA s.m v.name (makeVirtual c v.name v.t) }, true)

/-- Translation of `processVirtualRemove`. -/
def processVirtualRemove (s : RouterSt) (v : virtualData) : RouterSt × Bool :=
  ({ s with m := eraseA s.m v.name }, true)

/-- One work item applied to the indices by the worker (`process`
dispatching through `processPool`/`processVirtual`); returns the new
state and the `tryUpdate` flag.  The unsupported-operation error branch
is unreachable with the two-constructor `operation` type that models the
two Go constants. -/
def processWorkItem (c : Config) (s : RouterSt) (w : workItem) :
    RouterSt × Bool :=
  match w.data with
  | .pool p =>
      match w.op with
      | .add => processPoolAdd c s p
      | .remove => processPoolRemove s p
  | .virt v =>
      match w.op with
      | .add => processVirtualAdd c s v
      | .remove => processVirtualRemove s v

/-- The index state after the worker has processed a list of work items
in FIFO order. -/
def runItems (c : Config) (s : RouterSt) (ws : List workItem) : RouterSt :=
  ws.foldl (fun t w => (processWorkItem c t w).1) s

/-! ## Public intake (f5router.go lines 527-589, 655-694) -/

/-- `strings.HasPrefix(uri, "*.")`; both prefix characters are ASCII so
byte and character prefixes agree. -/
def hasStarDot (uri : String) : Bool :=
  match uri.data with
  | c1 :: c2 :: _ => (c1 == '*') && (c2 == '.')
  | _ => false

/-- `strings.TrimPrefix(uri, "*.")`. -/
def trimStarDot (uri : String) : String :=
  if hasStarDot uri then String.mk (uri.data.drop 2) else uri

/-- Translation of `UpdatePoolEndpoints`: build the add work item that
is enqueued.  An endpoint is modelled by its canonical `host:port`
address string.  For a non-wildcard URI without a `'.'` the call panics
inside `makePoolName` (see `makePoolName`), modelled as `none`. -/
def UpdatePoolEndpoints (uri endpoint : String) : Option workItem :=
  if hasStarDot uri then
    let u := trimStarDot uri
    some ⟨.add, .pool ⟨u, u, endpoint, true⟩⟩
  else
    (makePoolName uri).map fun n => ⟨.add, .pool ⟨n, uri, endpoint, false⟩⟩

/-- Translation of `RemovePoolEndpoints`: build the remove work item.
Note the asymmetry with `UpdatePoolEndpoints` faithful to the source
(line 578): the `URI` field carries the original `uri`, not the
`*.`-stripped form `u`, while the `Name` field carries the stripped
form. -/
def RemovePoolEndpoints (uri endpoint : String) : Option workItem :=
  if hasStarDot uri then
    let u := trimStarDot uri
    some ⟨.remove, .pool ⟨u, uri, endpoint, true⟩⟩
  else
    (makePoolName uri).map fun n => ⟨.remove, .pool ⟨n, uri, endpoint, false⟩⟩

/-- Translation of `UpdateVirtualServer`: the enqueued add item. -/
def UpdateVirtualServer (name : String) (t : vsType) : workItem :=
  ⟨.add, .virt ⟨name, t⟩⟩

/-- Translation of `RemoveVirtualServer`: the enqueued remove item. -/
def RemoveVirtualServer (name : String) (t : vsType) : workItem :=
  ⟨.remove, .virt ⟨name, t⟩⟩

/-! ## Policy assembly (f5router.go lines 372-413) -/

/-- Bytewise comparison of character lists; on strings this coincides
with Go's `<`/`<=` on their UTF-8 bytes, because UTF-8 preserves
code-point order. -/
def charsLe : List Char → List Char → Bool
  | [], _ => true
  | _ :: _, [] => false
  | a :: as, b :: bs =>
      if a.toNat < b.toNat then true
      else if b.toNat < a.toNat then false
      else charsLe as bs

/-- String order used by `rules.Less` (lexicographic `FullURI <`),
in its non-strict form. -/
def strLe (a b : String) : Bool :=
  charsLe a.data b.data

/-- Insert a rule into a list kept in descending `fullURI` order. -/
def insertDesc (a : rule) : List rule → List rule
  | [] => [a]
  | b :: l => if strLe b.fullURI a.fullURI then a :: b :: l else b :: insertDesc a l

/-- Sorting in descending `fullURI` order: models
`sort.Sort(sort.Reverse(rules))` with `Less` comparing `FullURI`.  On
lists with pairwise-distinct `fullURI` (the case for rule-map values,
which are keyed by URI) any correct sort produces this same list. -/
def sortRulesDesc (l : List rule) : List rule :=
  l.foldr insertDesc []

/-- Ordinal assignment: walk the sorted list, giving consecutive
ordinals starting from `b` (the `for`-loop over `*rls` in
`sortRules`). -/
def assignOrdinals : Nat → List rule → List rule
  | _, [] => []
  | b, rl :: l => { rl with ordinal := b } :: assignOrdinals (b + 1) l

/-- Translation of `makeRoutePolicy`: the exact rules sorted and
numbered from 0, the wildcard rules sorted and numbered from
`len(r.m)`, concatenated, with the constant policy metadata.  The two
goroutine sorts synchronize on a wait group before the concatenation
and read disjoint state, so they are modelled sequentially. -/
def makeRoutePolicy (c : Config) (s : RouterSt) (policyName : String) : policy :=
  let rls := assignOrdinals 0 (sortRulesDesc (valuesA s.r))
  let w := assignOrdinals s.m.length (sortRulesDesc (valuesA s.wildcards))
  { controls := ["forwarding"], legacy := true, name := policyName,
    partition := part0 c, requires := ["http"], rules := rls ++ w,
    strategy := "/Common/first-match" }

/-! ## Worker drain/emission flag logic (f5router.go lines 212-272) -/

/-- The post-mutation tail of `process`: fold `tryUpdate` into
`drainUpdate`, and when no per-item error occurred, `drainUpdate` is set
**and** the queue length is zero, clear `drainUpdate` and emit the
document.  `writeFull` models `err == nil && n == len(output)` for the
sink write; faithful to the source, write failures are only logged
after `drainUpdate` has already been cleared, so the flag result does
not depend on `writeFull`.  Returns the new `drainUpdate` flag and
whether the emission point was reached.  (The document assembly itself
is modelled by `makeRoutePolicy`; serialization is out of scope.) -/
def processEmit (drainUpdate tryUpdate : Bool) (perr : Bool) (queueLen : Nat)
    (writeFull : Bool) : Bool × Bool :=
  let d := if drainUpdate then drainUpdate else tryUpdate
  if perr then (d, false)
  else if d && queueLen == 0 then
    let _ := writeFull
    (false, true)
  else (d, false)

/-! ## Initial configuration document (f5router.go lines 119-139) -/

/-- The sections of an emitted configuration document. -/
inductive configSection where
  | globalSec (g : GlobalSection)
  | bigipSec (b : bigIPConfig)
  | policiesSec (p : List policy)
  | servicesSec (s : List routeConfig)
deriving DecidableEq, Repr

/-- Translation of `writeInitialConfig`'s document content: the
`sections` map holds exactly a `global` and a `bigip` entry before being
marshalled and written. -/
def initialSections (c : Config) : List (String × configSection) :=
  [("global", .globalSec ⟨c.logging.level, c.bigip.verifyInterval⟩),
   ("bigip", .bigipSec c.bigip)]

/-! ## Concrete values used by witnesses and counterexamples -/

/-- A concrete configuration for concrete evaluations. -/
def cfg0 : Config :=
  { logging := ⟨"info"⟩,
    bigip :=
    { partitions := ["c1"], balance := "round-robin", verifyInterval := 30,
      externalAddr := "192.0.2.1", sslProfile := "clientssl",
      routePolicies := ⟨[], []⟩, profiles := [] } }

/-- The ordinal-less shape of a rule, used to compare policy output with
index contents independently of the ordinals the assembler writes. -/
def ruleShape (r : rule) : rule :=
  { r with ordinal := 0 }

/-- Descending `fullURI` order between rules, the order produced by
`sort.Sort(sort.Reverse(rules))`. -/
def ruleGe (a b : rule) : Prop :=
  strLe b.fullURI a.fullURI = true

/-- Work item processed as an `UpdatePool` request, applied `n` times by
the worker. -/
def addNTimes (c : Config) (p : poolData) : Nat → RouterSt → RouterSt
  | 0, s => s
  | nn + 1, s => addNTimes c p nn (processWorkItem c s ⟨.add, .pool p⟩).1

/-- The exact (non-wildcard) URIs among the add-pool items of a work
list. -/
def exactAddURIs (ws : List workItem) : List String :=
  ws.filterMap fun w =>
    match w.op, w.data with
    | .add, .pool p => if p.wildcard then none else some p.uri
    | _, _ => none

/-- The wildcard URIs (already `*.`-stripped by intake) among the
add-pool items of a work list. -/
def wildAddURIs (ws : List workItem) : List String :=
  ws.filterMap fun w =>
    match w.op, w.data with
    | .add, .pool p => if p.wildcard then some p.uri else none
    | _, _ => none

/-! ### Concrete items for counterexamples and witnesses -/

/-- The work item `UpdatePoolEndpoints "*.x" "10.0.0.1:80"` enqueues. -/
def c1AddItem : workItem := ⟨.add, .pool ⟨"x", "x", "10.0.0.1:80", true⟩⟩

/-- The work item `RemovePoolEndpoints "*.x" "10.0.0.1:80"` enqueues;
its `uri` field is the unstripped `"*.x"` (f5router.go line 578). -/
def c1RemItem : workItem := ⟨.remove, .pool ⟨"x", "*.x", "10.0.0.1:80", true⟩⟩

/-- The work item `UpdatePoolEndpoints "*.a.x" "10.0.0.1:80"` enqueues. -/
def c3AddItem : workItem := ⟨.add, .pool ⟨"a.x", "a.x", "10.0.0.1:80", true⟩⟩

/-- The work item `RemovePoolEndpoints "*.a.x" "10.0.0.9:1"` enqueues. -/
def c3RemItem : workItem := ⟨.remove, .pool ⟨"a.x", "*.a.x", "10.0.0.9:1", true⟩⟩

/-- State with one wildcard pool `a.x` holding endpoint `10.0.0.1:80`. -/
def c3St : RouterSt := runItems cfg0 emptySt [c3AddItem]

/-- A concrete pool record with one endpoint, for the C3 witness. -/
def c3WPool : routeConfig := makePool cfg0 "p" "u.x" ["10.0.0.1:80"]

/-- A concrete one-pool state for the C3 witness. -/
def c3WSt : RouterSt := ⟨[("p", c3WPool)], [], []⟩

/-- The work item `UpdatePoolEndpoints "a.x" "10.0.0.1:1"` enqueues
(`makePoolName "a.x" = "a-2301204174774e9d"`). -/
def c5ItemA : workItem :=
  ⟨.add, .pool ⟨"a-2301204174774e9d", "a.x", "10.0.0.1:1", false⟩⟩

/-- The work item `UpdatePoolEndpoints "b.x" "10.0.0.1:1"` enqueues
(`makePoolName "b.x" = "b-bc1638f7b2eb9f6b"`). -/
def c5ItemB : workItem :=
  ⟨.add, .pool ⟨"b-bc1638f7b2eb9f6b", "b.x", "10.0.0.1:1", false⟩⟩

/-- The work item `UpdatePoolEndpoints "*.z" "10.0.0.1:1"` enqueues. -/
def c5ItemW : workItem := ⟨.add, .pool ⟨"z", "z", "10.0.0.1:1", true⟩⟩

/-- A reachable state with two exact rules but a single pool record:
two exact adds, one wildcard add, then two `RemoveVirtualServer` calls
whose names equal the exact pools' names. -/
def c5St : RouterSt :=
  runItems cfg0 emptySt
    [c5ItemA, c5ItemB, c5ItemW,
     RemoveVirtualServer "a-2301204174774e9d" .HTTP,
     RemoveVirtualServer "b-bc1638f7b2eb9f6b" .HTTP]

/-- A rule literal with URI `a.x`, for the C5 witness. -/
def c5WRuleA : rule := ⟨"a.x", [], [], "na", 0⟩

/-- A rule literal with URI `z`, for the C5 witness. -/
def c5WRuleZ : rule := ⟨"z", [], [], "nz", 0⟩

/-- A state with one exact rule, one wildcard rule and two pool
records, for the C5 witness. -/
def c5WSt : RouterSt :=
  ⟨[("p1", c3WPool), ("p2", c3WPool)], [("a.x", c5WRuleA)], [("z", c5WRuleZ)]⟩

/-- A single exact add item, for the C4 witness. -/
def c4WList : List workItem :=
  [⟨.add, .pool ⟨"n1", "e.x", "10.0.0.2:80", false⟩⟩]

/-- The wildcard work item `UpdatePoolEndpoints "*.a.x" "10.0.0.1:80"`
enqueues, for the C4 counterexample. -/
def c4WildAddItem : workItem := ⟨.add, .pool ⟨"a.x", "a.x", "10.0.0.1:80", true⟩⟩

/-- The exact work item `UpdatePoolEndpoints "a.x" "10.0.0.1:80"`
enqueues, for the C4 counterexample. -/
def c4ExactAddItem : workItem :=
  ⟨.add, .pool ⟨"a-2301204174774e9d", "a.x", "10.0.0.1:80", false⟩⟩

/-- A pool data literal for the C8 witness. -/
def c8Pool : poolData := ⟨"n1", "a.x/api/v1", "10.0.0.1:80", false⟩

/-! # Lemmas about the association-list operations -/

theorem lookupA_replaceA_self {α : Type} (l : List (String × α)) (k : String)
    (v v' : α) (h : lookupA l k = some v) :
    lookupA (replaceA l k v') k = some v' := by
  induction l with
  | nil => simp [lookupA] at h
  | cons a l ih =>
      obtain ⟨ka, va⟩ := a
      by_cases hk : ka = k
      · simp [lookupA, replaceA, hk]
      · simp [lookupA, hk] at h
        simp [lookupA, replaceA, hk, ih h]

theorem replaceA_self {α : Type} (l : List (String × α)) (k : String) (v : α)
    (h : lookupA l k = some v) : replaceA l k v = l := by
  induction l with
  | nil => simp [lookupA] at h
  | cons a l ih =>
      obtain ⟨ka, va⟩ := a
      by_cases hk : ka = k
      · simp [lookupA, hk] at h
        simp [replaceA, hk, h]
      · simp [lookupA, hk] at h
        simp [replaceA, hk, ih h]

theorem replaceA_replaceA {α : Type} (l : List (String × α)) (k : String)
    (v v' : α) : replaceA (replaceA l k v) k v' = replaceA l k v' := by
  induction l with
  | nil => simp [replaceA]
  | cons a l ih =>
      obtain ⟨ka, va⟩ := a
      by_cases hk : ka = k
      · simp [replaceA, hk]
      · simp [replaceA, hk, ih]

theorem lookupA_append_self {α : Type} (l : List (String × α)) (k : String)
    (v : α) (h : lookupA l k = none) :
    lookupA (l ++ [(k, v)]) k = some v := by
  induction l with
  | nil => simp [lookupA]
  | cons a l ih =>
      obtain ⟨ka, va⟩ := a
      by_cases hk : ka = k
      · simp [lookupA, hk] at h
      · simp [lookupA, hk] at h ⊢
        exact ih h

theorem replaceA_append_self {α : Type} (l : List (String × α)) (k : String)
    (v v' : α) (h : lookupA l k = none) :
    replaceA (l ++ [(k, v)]) k v' = l ++ [(k, v')] := by
  induction l with
  | nil => simp [replaceA]
  | cons a l ih =>
      obtain ⟨ka, va⟩ := a
      by_cases hk : ka = k
      · simp [lookupA, hk] at h
      · simp [lookupA, hk] at h
        simp [replaceA, hk, ih h]

theorem eraseA_append_self {α : Type} (l : List (String × α)) (k : String)
    (v : α) (h : lookupA l k = none) :
    eraseA (l ++ [(k, v)]) k = l := by
  induction l with
  | nil => simp [eraseA]
  | cons a l ih =>
      obtain ⟨ka, va⟩ := a
      by_cases hk : ka = k
      · simp [lookupA, hk] at h
      · simp [lookupA, hk] at h
        simp [eraseA, hk, ih h]

theorem insertA_of_lookup_none {α : Type} (l : List (String × α))
    (k : String) (v : α) (h : lookupA l k = none) :
    insertA l k v = l ++ [(k, v)] := by
  simp [insertA, h]

theorem keysA_replaceA {α : Type} (l : List (String × α)) (k : String)
    (v : α) : keysA (replaceA l k v) = keysA l := by
  induction l with
  | nil => simp [replaceA]
  | cons a l ih =>
      obtain ⟨ka, va⟩ := a
      by_cases hk : ka = k
      · simp [replaceA, hk, keysA]
      · simp [replaceA, hk, keysA] at ih ⊢
        exact ih

theorem keysA_cons {α : Type} (a : String × α) (l : List (String × α)) :
    keysA (a :: l) = a.1 :: keysA l := rfl

theorem mem_keysA_eraseA {α : Type} (l : List (String × α)) (k x : String)
    (h : x ∈ keysA (eraseA l k)) : x ∈ keysA l := by
  induction l with
  | nil => simp only [eraseA] at h; exact h
  | cons a l ih =>
      obtain ⟨ka, va⟩ := a
      by_cases hk : ka = k
      · rw [eraseA, if_pos hk] at h
        rw [keysA_cons]
        exact List.mem_cons_of_mem _ h
      · rw [eraseA, if_neg hk, keysA_cons] at h
        rw [keysA_cons]
        rcases List.mem_cons.mp h with h | h
        · exact List.mem_cons.mpr (Or.inl h)
        · exact List.mem_cons.mpr (Or.inr (ih h))

theorem mem_keysA_insertA {α : Type} (l : List (String × α)) (k x : String)
    (v : α) (h : x ∈ keysA (insertA l k v)) : x = k ∨ x ∈ keysA l := by
  unfold insertA at h
  cases hl : lookupA l k with
  | some w =>
      rw [hl] at h
      rw [keysA_replaceA] at h
      exact Or.inr h
  | none =>
      rw [hl] at h
      simp [keysA] at h
      rcases h with h | h
      · exact Or.inr (by simpa [keysA] using h)
      · exact Or.inl h

theorem eraseFirstStr_of_not_mem (l : List String) (x : String)
    (h : x ∉ l) : eraseFirstStr l x = l := by
  induction l with
  | nil => simp [eraseFirstStr]
  | cons a l ih =>
      have hax : ¬(a = x) := fun he => h (by rw [← he]; exact List.mem_cons_self a l)
      rw [eraseFirstStr, if_neg hax, ih (fun hm => h (List.mem_cons_of_mem a hm))]

theorem eraseFirstStr_append_self (l : List String) (x : String)
    (h : x ∉ l) : eraseFirstStr (l ++ [x]) x = l := by
  induction l with
  | nil => simp [eraseFirstStr]
  | cons a l ih =>
      have hax : ¬(a = x) := fun he => h (by rw [← he]; exact List.mem_cons_self a l)
      rw [List.cons_append, eraseFirstStr, if_neg hax,
        ih (fun hm => h (List.mem_cons_of_mem a hm))]

theorem eraseA_replaceA {α : Type} (l : List (String × α)) (k : String)
    (v : α) : eraseA (replaceA l k v) k = eraseA l k := by
  induction l with
  | nil => simp [replaceA]
  | cons a l ih =>
      obtain ⟨ka, va⟩ := a
      by_cases hk : ka = k
      · simp [replaceA, eraseA, hk]
      · simp [replaceA, eraseA, hk, ih]

/-! # Branch lemmas for the worker mutations -/

theorem processPoolAdd_dup (c : Config) (s : RouterSt) (p : poolData)
    (pool : routeConfig) (hm : lookupA s.m p.name = some pool)
    (he : p.endpoint ∈ pool.item.backend.poolMemberAddrs) :
    processPoolAdd c s p = (s, false) := by
  simp only [processPoolAdd, hm, if_pos he]

theorem processPoolAdd_append (c : Config) (s : RouterSt) (p : poolData)
    (pool : routeConfig) (hm : lookupA s.m p.name = some pool)
    (he : p.endpoint ∉ pool.item.backend.poolMemberAddrs) :
    processPoolAdd c s p =
      ({ s with
          m := replaceA s.m p.name
            ({ pool with item.backend.poolMemberAddrs :=
                pool.item.backend.poolMemberAddrs ++ [p.endpoint] }) }, true) := by
  simp only [processPoolAdd, hm, if_neg he]

theorem processPoolAdd_new_none (c : Config) (s : RouterSt) (p : poolData)
    (hm : lookupA s.m p.name = none) (hr : makeRouteRule c p = none) :
    processPoolAdd c s p = (s, false) := by
  simp only [processPoolAdd, hm, hr]

theorem processPoolAdd_new_exact (c : Config) (s : RouterSt) (p : poolData)
    (rl : rule) (hm : lookupA s.m p.name = none)
    (hr : makeRouteRule c p = some rl) (hw : p.wildcard = false) :
    processPoolAdd c s p =
      ({ s with
          r := insertA s.r p.uri rl,
          m := insertA s.m p.name (makePool c p.name p.uri [p.endpoint]) },
       true) := by
  simp only [processPoolAdd, hm, hr, hw, Bool.false_eq_true, if_neg]
  simp

theorem processPoolAdd_new_wild (c : Config) (s : RouterSt) (p : poolData)
    (rl : rule) (hm : lookupA s.m p.name = none)
    (hr : makeRouteRule c p = some rl) (hw : p.wildcard = true) :
    processPoolAdd c s p =
      ({ s with
          wildcards := insertA s.wildcards p.uri rl,
          m := insertA s.m p.name (makePool c p.name p.uri [p.endpoint]) },
       true) := by
  simp only [processPoolAdd, hm, hr, hw, if_pos]

theorem processPoolRemove_none (s : RouterSt) (p : poolData)
    (hm : lookupA s.m p.name = none) :
    processPoolRemove s p = (s, false) := by
  simp only [processPoolRemove, hm]

theorem processPoolRemove_nonempty (s : RouterSt) (p : poolData)
    (pool : routeConfig) (hm : lookupA s.m p.name = some pool)
    (hne : (eraseFirstStr pool.item.backend.poolMemberAddrs p.endpoint).length ≠ 0) :
    processPoolRemove s p =
      ({ s with
          m := replaceA s.m p.name
            ({ pool with item.backend.poolMemberAddrs :=
                eraseFirstStr pool.item.backend.poolMemberAddrs p.endpoint }) },
       true) := by
  simp only [processPoolRemove, hm, if_neg hne]

theorem processPoolRemove_empty_exact (s : RouterSt) (p : poolData)
    (pool : routeConfig) (hm : lookupA s.m p.name = some pool)
    (hlen : (eraseFirstStr pool.item.backend.poolMemberAddrs p.endpoint).length = 0)
    (hw : p.wildcard = false) :
    processPoolRemove s p =
      ({ s with
          m := eraseA s.m p.name,
          r := eraseA s.r p.uri }, true) := by
  simp only [processPoolRemove, hm, if_pos hlen, hw, Bool.false_eq_true, if_neg]
  simp only [eraseA_replaceA]
  simp

theorem processPoolRemove_empty_wild (s : RouterSt) (p : poolData)
    (pool : routeConfig) (hm : lookupA s.m p.name = some pool)
    (hlen : (eraseFirstStr pool.item.backend.poolMemberAddrs p.endpoint).length = 0)
    (hw : p.wildcard = true) :
    processPoolRemove s p =
      ({ s with
          m := eraseA s.m p.name,
          wildcards := eraseA s.wildcards p.uri }, true) := by
  simp only [processPoolRemove, hm, if_pos hlen, hw, if_pos]
  simp only [eraseA_replaceA]

/-! # Claim C2: write failure and the dirty flag -/

/-- C2 counterexample: at an emission point (`drainUpdate` set, queue
empty) with a failed or short write (`writeFull = false`), the flag
comes out `false`, not retained as the claim states: `process` clears
`drainUpdate` before attempting the write and never restores it. -/
theorem c2_counterexample :
    processEmit true false false 0 false = (false, true) := by decide

/-- C2 amended: whenever an item finishes with no per-item error and the
queue drained, the dirty flag is cleared regardless of the write
outcome; emission is attempted exactly when the flag was set. -/
theorem c2_amended (d t wOk : Bool) :
    processEmit d t false 0 wOk = (false, d || t) := by
  cases d <;> cases t <;> cases wOk <;> rfl

/-! # Claim C9: initial configuration document -/

/-- C9 counterexample: the startup document contains no `services`
section at all (its keys are exactly `global` and `bigip`), contrary to
the claim that it contains an empty services list. -/
theorem c9_counterexample :
    lookupA (initialSections cfg0) "services" = none ∧
    keysA (initialSections cfg0) = ["global", "bigip"] := by decide

/-- C9 amended: for every configuration, the initial document written at
startup consists of exactly the `global` and `bigip` sections; no
`services` (or `policies`) section is present, so services are absent by
omission rather than present and empty. -/
theorem c9_amended (c : Config) :
    keysA (initialSections c) = ["global", "bigip"] ∧
    lookupA (initialSections c) "services" = none ∧
    lookupA (initialSections c) "policies" = none := by
  refine ⟨rfl, ?_, ?_⟩ <;> rfl

/-! # Claim C10: `makePoolName` is partial on dot-free URIs -/

theorem strIndexDot_eq_none_iff (l : List Char) :
    strIndexDot l = none ↔ '.' ∉ l := by
  induction l with
  | nil => simp [strIndexDot]
  | cons c l ih =>
      by_cases h : c = '.'
      · subst h; simp [strIndexDot]
      · rw [strIndexDot, if_neg h, Option.map_eq_none', ih]
        simp only [List.mem_cons]
        constructor
        · intro hl hor
          rcases hor with he | hm
          · exact h he.symm
          · exact hl hm
        · intro hcl hm
          exact hcl (Or.inr hm)

theorem hasStarDot_dot_mem (uri : String) (h : hasStarDot uri = true) :
    '.' ∈ uri.data := by
  unfold hasStarDot at h
  match hu : uri.data with
  | [] => rw [hu] at h; simp at h
  | [c] => rw [hu] at h; simp at h
  | c1 :: c2 :: rest =>
      rw [hu] at h
      simp at h
      rw [h.2]
      simp

/-- C10: for every URI without a `'.'` character, `makePoolName` is
undefined (Go: `strings.Index` returns `-1` and the slice `uri[:-1]`
panics), and so are `UpdatePoolEndpoints` and `RemovePoolEndpoints`,
which call it on every non-wildcard URI; `makePoolName` is defined
exactly on URIs containing at least one dot. -/
theorem c10_makePoolName_domain (uri ep : String) :
    ((makePoolName uri).isSome ↔ '.' ∈ uri.data) ∧
    ('.' ∉ uri.data →
      makePoolName uri = none ∧
      UpdatePoolEndpoints uri ep = none ∧
      RemovePoolEndpoints uri ep = none) := by
  have hiff : (makePoolName uri).isSome ↔ '.' ∈ uri.data := by
    unfold makePoolName
    cases hs : strIndexDot uri.data with
    | none =>
        simp only [hs, Option.map_none', Option.isSome_none,
          Bool.false_eq_true, false_iff]
        exact (strIndexDot_eq_none_iff uri.data).mp hs
    | some i =>
        simp only [hs, Option.map_some', Option.isSome_some, true_iff]
        by_contra hmem
        rw [← strIndexDot_eq_none_iff uri.data] at hmem
        rw [hs] at hmem
        exact Option.noConfusion hmem
  refine ⟨hiff, fun hnd => ?_⟩
  have hnone : makePoolName uri = none := by
    rw [← Option.not_isSome_iff_eq_none]
    intro hsome
    exact hnd (hiff.mp hsome)
  have hstar : hasStarDot uri = false := by
    cases hsd : hasStarDot uri with
    | false => rfl
    | true => exact absurd (hasStarDot_dot_mem uri hsd) hnd
  refine ⟨hnone, ?_, ?_⟩
  · simp [UpdatePoolEndpoints, hstar, hnone]
  · simp [RemovePoolEndpoints, hstar, hnone]

/-! # Claim C3: removing an absent endpoint from an existing pool -/

/-- C3 counterexample: with the wildcard pool `a.x` holding endpoint
`10.0.0.1:80`, processing the remove item for the absent endpoint
`10.0.0.9:1` leaves the indices unchanged but returns `true`
(`processPoolRemove` sets `ret = true` whenever the pool exists), so
the dirty flag is set with no actual change, contrary to the claim. -/
theorem c3_counterexample :
    UpdatePoolEndpoints "*.a.x" "10.0.0.1:80" = some c3AddItem ∧
    RemovePoolEndpoints "*.a.x" "10.0.0.9:1" = some c3RemItem ∧
    (lookupA c3St.m "a.x").map (fun rc => rc.item.backend.poolMemberAddrs) =
      some ["10.0.0.1:80"] ∧
    processWorkItem cfg0 c3St c3RemItem = (c3St, true) := by decide

/-- C3 amended: for a RemovePool item whose pool record exists with a
nonempty endpoint list not containing the item's endpoint, processing
leaves the indices unchanged but still reports a change (`true`, so the
dirty flag is set): the code reports a change whenever the pool record
exists, not only when an actual change occurred. -/
theorem c3_amended (s : RouterSt) (p : poolData) (pool : routeConfig)
    (h1 : lookupA s.m p.name = some pool)
    (h2 : p.endpoint ∉ pool.item.backend.poolMemberAddrs)
    (h3 : pool.item.backend.poolMemberAddrs ≠ []) :
    processPoolRemove s p = (s, true) := by
  have hne : (eraseFirstStr pool.item.backend.poolMemberAddrs p.endpoint).length ≠ 0 := by
    rw [eraseFirstStr_of_not_mem _ _ h2]
    intro hlen
    exact h3 (List.length_eq_zero.mp hlen)
  rw [processPoolRemove_nonempty s p pool h1 hne]
  rw [eraseFirstStr_of_not_mem _ _ h2]
  rw [show ({ pool with item.backend.poolMemberAddrs :=
      pool.item.backend.poolMemberAddrs } : routeConfig) = pool from rfl]
  rw [replaceA_self s.m p.name pool h1]

/-- C3 witness: the amended theorem applied to a concrete one-pool
state and a remove item for an endpoint the pool does not hold. -/
theorem c3_witness :
    (lookupA c3WSt.m "p" = some c3WPool ∧
      "10.9.9.9:9" ∉ c3WPool.item.backend.poolMemberAddrs ∧
      c3WPool.item.backend.poolMemberAddrs ≠ []) ∧
    processPoolRemove c3WSt ⟨"p", "u.x", "10.9.9.9:9", false⟩ = (c3WSt, true) :=
  ⟨⟨by decide, by decide, by decide⟩,
    c3_amended c3WSt ⟨"p", "u.x", "10.9.9.9:9", false⟩ c3WPool
      (by decide) (by decide) (by decide)⟩

/-! # Claim C7: idempotence of UpdatePool processing -/

theorem processPoolAdd_second (c : Config) (s : RouterSt) (p : poolData) :
    processPoolAdd c (processPoolAdd c s p).1 p = ((processPoolAdd c s p).1, false) := by
  cases hm : lookupA s.m p.name with
  | some pool =>
      by_cases he : p.endpoint ∈ pool.item.backend.poolMemberAddrs
      · rw [processPoolAdd_dup c s p pool hm he]
        exact processPoolAdd_dup c s p pool hm he
      · have h1 : (processPoolAdd c s p).1 =
            { s with m := replaceA s.m p.name
                            ({ pool with item.backend.poolMemberAddrs :=
                                pool.item.backend.poolMemberAddrs ++ [p.endpoint] }) } := by
          rw [processPoolAdd_append c s p pool hm he]
        rw [h1]
        refine processPoolAdd_dup c _ p
          ({ pool with item.backend.poolMemberAddrs :=
              pool.item.backend.poolMemberAddrs ++ [p.endpoint] }) ?_ ?_
        · exact lookupA_replaceA_self s.m p.name pool _ hm
        · show p.endpoint ∈ pool.item.backend.poolMemberAddrs ++ [p.endpoint]
          simp
  | none =>
      cases hr : makeRouteRule c p with
      | none =>
          have h1 : (processPoolAdd c s p).1 = s := by
            rw [processPoolAdd_new_none c s p hm hr]
          rw [h1]
          exact processPoolAdd_new_none c s p hm hr
      | some rl =>
          cases hw : p.wildcard with
          | false =>
              have h1 : (processPoolAdd c s p).1 =
                  { s with
                      r := insertA s.r p.uri rl,
                      m := insertA s.m p.name (makePool c p.name p.uri [p.endpoint]) } := by
                rw [processPoolAdd_new_exact c s p rl hm hr hw]
              rw [h1]
              refine processPoolAdd_dup c _ p (makePool c p.name p.uri [p.endpoint]) ?_ ?_
              · show lookupA (insertA s.m p.name (makePool c p.name p.uri [p.endpoint]))
                  p.name = some (makePool c p.name p.uri [p.endpoint])
                rw [insertA_of_lookup_none s.m p.name _ hm]
                exact lookupA_append_self s.m p.name _ hm
              · show p.endpoint ∈ [p.endpoint]
                simp
          | true =>
              have h1 : (processPoolAdd c s p).1 =
                  { s with
                      wildcards := insertA s.wildcards p.uri rl,
                      m := insertA s.m p.name (makePool c p.name p.uri [p.endpoint]) } := by
                rw [processPoolAdd_new_wild c s p rl hm hr hw]
              rw [h1]
              refine processPoolAdd_dup c _ p (makePool c p.name p.uri [p.endpoint]) ?_ ?_
              · show lookupA (insertA s.m p.name (makePool c p.name p.uri [p.endpoint]))
                  p.name = some (makePool c p.name p.uri [p.endpoint])
                rw [insertA_of_lookup_none s.m p.name _ hm]
                exact lookupA_append_self s.m p.name _ hm
              · show p.endpoint ∈ [p.endpoint]
                simp

theorem addNTimes_of_fixed (c : Config) (p : poolData) (t : RouterSt)
    (hfix : (processPoolAdd c t p).1 = t) : ∀ nn, addNTimes c p nn t = t := by
  intro nn
  induction nn with
  | zero => rfl
  | succ k ih =>
      show addNTimes c p k (processWorkItem c t ⟨.add, .pool p⟩).1 = t
      rw [show (processWorkItem c t ⟨.add, .pool p⟩).1 = (processPoolAdd c t p).1 from rfl,
        hfix]
      exact ih

/-- C7: processing the same UpdatePool work item `n + 1` times yields
the same index state as processing it once, and on the state after one
application a further application reports no change (`tryUpdate` is
`false`, so the no-op does not set the dirty flag). -/
theorem c7_update_idempotent (c : Config) (p : poolData) (s : RouterSt) (nn : Nat) :
    addNTimes c p (nn + 1) s = addNTimes c p 1 s ∧
    processWorkItem c (addNTimes c p 1 s) ⟨.add, .pool p⟩ =
      (addNTimes c p 1 s, false) := by
  have hsecond := processPoolAdd_second c s p
  constructor
  · show addNTimes c p nn (processWorkItem c s ⟨.add, .pool p⟩).1 =
      addNTimes c p 1 s
    rw [show (processWorkItem c s ⟨.add, .pool p⟩).1 = (processPoolAdd c s p).1 from rfl]
    show addNTimes c p nn (processPoolAdd c s p).1 = (processPoolAdd c s p).1
    exact addNTimes_of_fixed c p _ (by rw [hsecond]) nn
  · show processPoolAdd c (processPoolAdd c s p).1 p = ((processPoolAdd c s p).1, false)
    exact hsecond

/-! # Claim C1: UpdatePool then RemovePool round trip -/

/-- C1 counterexample: starting from empty indices,
`UpdatePool("*.x", e)` then `RemovePool("*.x", e)` does *not* restore
the empty pre-state: the pool record is deleted but the wildcard rule
survives under key `"x"`, because `RemovePoolEndpoints` fills the work
item's `URI` field with the unstripped `"*.x"` (f5router.go line 578)
while the rule was inserted under the stripped URI. -/
theorem c1_counterexample :
    UpdatePoolEndpoints "*.x" "10.0.0.1:80" = some c1AddItem ∧
    RemovePoolEndpoints "*.x" "10.0.0.1:80" = some c1RemItem ∧
    runItems cfg0 emptySt [c1AddItem, c1RemItem] ≠ emptySt ∧
    keysA (runItems cfg0 emptySt [c1AddItem, c1RemItem]).wildcards = ["x"] ∧
    (runItems cfg0 emptySt [c1AddItem, c1RemItem]).m = [] := by decide

/-- C1 amended: for a non-wildcard URI (one containing a `'.'`, so its
pool name is defined) and an index state in which the URI's pool record,
if present, has a nonempty endpoint list that does not contain the
endpoint, and in which the URI has no exact rule unless its pool record
exists — conditions that hold in reachable states absent truncated-hash
collisions and virtual-server interference — processing the
`UpdatePool(u,e)` item then the `RemovePool(u,e)` item restores all
three indices exactly.  For wildcard URIs the claim fails (see the
counterexample): the stale wildcard rule is left behind. -/
theorem c1_amended (c : Config) (s : RouterSt) (uri ep n : String)
    (hw : hasStarDot uri = false)
    (hn : makePoolName uri = some n)
    (hm : ∀ rc, lookupA s.m n = some rc →
      ep ∉ rc.item.backend.poolMemberAddrs ∧ rc.item.backend.poolMemberAddrs ≠ [])
    (hr : lookupA s.m n = none → lookupA s.r uri = none) :
    ∃ w1 w2,
      UpdatePoolEndpoints uri ep = some w1 ∧
      RemovePoolEndpoints uri ep = some w2 ∧
      runItems c s [w1, w2] = s := by
  refine ⟨⟨.add, .pool ⟨n, uri, ep, false⟩⟩, ⟨.remove, .pool ⟨n, uri, ep, false⟩⟩,
    ?_, ?_, ?_⟩
  · simp [UpdatePoolEndpoints, hw, hn]
  · simp [RemovePoolEndpoints, hw, hn]
  · show (processPoolRemove (processPoolAdd c s ⟨n, uri, ep, false⟩).1
      ⟨n, uri, ep, false⟩).1 = s
    cases hlm : lookupA s.m n with
    | some pool =>
        obtain ⟨hne, hnn⟩ := hm pool hlm
        have hre : eraseFirstStr (pool.item.backend.poolMemberAddrs ++ [ep]) ep =
            pool.item.backend.poolMemberAddrs :=
          eraseFirstStr_append_self _ _ hne
        have h1 : (processPoolAdd c s ⟨n, uri, ep, false⟩).1 =
            { s with m := replaceA s.m n
                            ({ pool with item.backend.poolMemberAddrs :=
                                pool.item.backend.poolMemberAddrs ++ [ep] }) } := by
          rw [processPoolAdd_append c s _ pool hlm hne]
        rw [h1]
        have hl1 : lookupA (replaceA s.m n
            ({ pool with item.backend.poolMemberAddrs :=
                pool.item.backend.poolMemberAddrs ++ [ep] })) n =
            some ({ pool with item.backend.poolMemberAddrs :=
                pool.item.backend.poolMemberAddrs ++ [ep] }) :=
          lookupA_replaceA_self s.m n pool _ hlm
        have hlen : (eraseFirstStr
            ({ pool with item.backend.poolMemberAddrs :=
                pool.item.backend.poolMemberAddrs ++ [ep] } :
              routeConfig).item.backend.poolMemberAddrs ep).length ≠ 0 := by
          show (eraseFirstStr (pool.item.backend.poolMemberAddrs ++ [ep]) ep).length ≠ 0
          rw [hre]
          intro h0
          exact hnn (List.length_eq_zero.mp h0)
        have hrem := processPoolRemove_nonempty
          ({ s with m := replaceA s.m n
                          ({ pool with item.backend.poolMemberAddrs :=
                              pool.item.backend.poolMemberAddrs ++ [ep] }) })
          ⟨n, uri, ep, false⟩ _ hl1 hlen
        rw [hrem]
        show ({ s with m := replaceA (replaceA s.m n
                          ({ pool with item.backend.poolMemberAddrs :=
                              pool.item.backend.poolMemberAddrs ++ [ep] })) n
                          ({ pool with item.backend.poolMemberAddrs :=
                              eraseFirstStr (pool.item.backend.poolMemberAddrs ++ [ep]) ep }) } :
          RouterSt) = s
        rw [hre]
        rw [show ({ pool with item.backend.poolMemberAddrs :=
            pool.item.backend.poolMemberAddrs } : routeConfig) = pool from rfl]
        rw [replaceA_replaceA, replaceA_self s.m n pool hlm]
    | none =>
        have hru : lookupA s.r uri = none := hr hlm
        cases hrl : makeRouteRule c ⟨n, uri, ep, false⟩ with
        | none =>
            have h1 : (processPoolAdd c s ⟨n, uri, ep, false⟩).1 = s := by
              rw [processPoolAdd_new_none c s _ hlm hrl]
            rw [h1]
            rw [processPoolRemove_none s _ hlm]
        | some rl =>
            have h1 : (processPoolAdd c s ⟨n, uri, ep, false⟩).1 =
                { s with
                    r := insertA s.r uri rl,
                    m := insertA s.m n (makePool c n uri [ep]) } := by
              rw [processPoolAdd_new_exact c s _ rl hlm hrl rfl]
            rw [h1]
            have hl1 : lookupA (insertA s.m n (makePool c n uri [ep])) n =
                some (makePool c n uri [ep]) := by
              rw [insertA_of_lookup_none s.m n _ hlm]
              exact lookupA_append_self s.m n _ hlm
            have hlen : (eraseFirstStr
                (makePool c n uri [ep]).item.backend.poolMemberAddrs ep).length = 0 := by
              show (eraseFirstStr [ep] ep).length = 0
              simp [eraseFirstStr]
            have hrem := processPoolRemove_empty_exact
              ({ s with
                  r := insertA s.r uri rl,
                  m := insertA s.m n (makePool c n uri [ep]) })
              ⟨n, uri, ep, false⟩ (makePool c n uri [ep]) hl1 hlen rfl
            rw [hrem]
            show ({ s with
                m := eraseA (insertA s.m n (makePool c n uri [ep])) n,
                r := eraseA (insertA s.r uri rl) uri } : RouterSt) = s
            rw [insertA_of_lookup_none s.m n _ hlm,
              insertA_of_lookup_none s.r uri _ hru,
              eraseA_append_self _ _ _ hlm,
              eraseA_append_self _ _ _ hru]

/-- C1 witness: the amended round trip evaluated at `uri = "a.x"`,
`endpoint = 10.0.0.1:80` from the empty state. -/
theorem c1_witness :
    (hasStarDot "a.x" = false ∧
      makePoolName "a.x" = some "a-2301204174774e9d") ∧
    ∃ w1 w2,
      UpdatePoolEndpoints "a.x" "10.0.0.1:80" = some w1 ∧
      RemovePoolEndpoints "a.x" "10.0.0.1:80" = some w2 ∧
      runItems cfg0 emptySt [w1, w2] = emptySt :=
  ⟨⟨by decide, by decide⟩,
    c1_amended cfg0 emptySt "a.x" "10.0.0.1:80" "a-2301204174774e9d"
      (by decide) (by decide)
      (by intro rc hrc; simp [emptySt, lookupA] at hrc)
      (fun _ => rfl)⟩

/-- C10 witness: at `uri = "nodots"` the hypothesis holds and all three
operations are undefined; at `uri = "a.x"` the name is defined. -/
theorem c10_witness :
    ('.' ∉ "nodots".data ∧
      makePoolName "nodots" = none ∧
      UpdatePoolEndpoints "nodots" "10.0.0.1:80" = none ∧
      RemovePoolEndpoints "nodots" "10.0.0.1:80" = none) ∧
    (makePoolName "a.x").isSome := by
  constructor
  · exact ⟨by decide, (c10_makePoolName_domain "nodots" "10.0.0.1:80").2 (by decide)⟩
  · exact ((c10_makePoolName_domain "a.x" "10.0.0.1:80").1).mpr (by decide)

/-! # Claim C4: disjointness of the exact and wildcard rule indices -/

theorem exactAddURIs_cons (w : workItem) (ws : List workItem) :
    exactAddURIs (w :: ws) = exactAddURIs [w] ++ exactAddURIs ws := by
  show List.filterMap _ ([w] ++ ws) = _
  rw [List.filterMap_append]
  rfl

theorem wildAddURIs_cons (w : workItem) (ws : List workItem) :
    wildAddURIs (w :: ws) = wildAddURIs [w] ++ wildAddURIs ws := by
  show List.filterMap _ ([w] ++ ws) = _
  rw [List.filterMap_append]
  rfl

theorem step_r_keys (c : Config) (s : RouterSt) (w : workItem) (u : String)
    (h : u ∈ keysA (processWorkItem c s w).1.r) :
    u ∈ keysA s.r ∨ u ∈ exactAddURIs [w] := by
  match w with
  | ⟨.add, .pool p⟩ =>
      have hw : (processWorkItem c s ⟨.add, .pool p⟩).1 = (processPoolAdd c s p).1 := rfl
      rw [hw] at h
      cases hm : lookupA s.m p.name with
      | some pool =>
          by_cases he : p.endpoint ∈ pool.item.backend.poolMemberAddrs
          · rw [processPoolAdd_dup c s p pool hm he] at h
            exact Or.inl h
          · rw [processPoolAdd_append c s p pool hm he] at h
            exact Or.inl h
      | none =>
          cases hr : makeRouteRule c p with
          | none =>
              rw [processPoolAdd_new_none c s p hm hr] at h
              exact Or.inl h
          | some rl =>
              cases hwild : p.wildcard with
              | true =>
                  rw [processPoolAdd_new_wild c s p rl hm hr hwild] at h
                  exact Or.inl h
              | false =>
                  rw [processPoolAdd_new_exact c s p rl hm hr hwild] at h
                  have h' : u ∈ keysA (insertA s.r p.uri rl) := h
                  rcases mem_keysA_insertA s.r p.uri u rl h' with h1 | h1
                  · right
                    subst h1
                    simp [exactAddURIs, hwild]
                  · exact Or.inl h1
  | ⟨.remove, .pool p⟩ =>
      have hw : (processWorkItem c s ⟨.remove, .pool p⟩).1 = (processPoolRemove s p).1 := rfl
      rw [hw] at h
      cases hm : lookupA s.m p.name with
      | none =>
          rw [processPoolRemove_none s p hm] at h
          exact Or.inl h
      | some pool =>
          by_cases hlen :
            (eraseFirstStr pool.item.backend.poolMemberAddrs p.endpoint).length = 0
          · cases hwild : p.wildcard with
            | true =>
                rw [processPoolRemove_empty_wild s p pool hm hlen hwild] at h
                exact Or.inl h
            | false =>
                rw [processPoolRemove_empty_exact s p pool hm hlen hwild] at h
                have h' : u ∈ keysA (eraseA s.r p.uri) := h
                exact Or.inl (mem_keysA_eraseA s.r p.uri u h')
          · rw [processPoolRemove_nonempty s p pool hm hlen] at h
            exact Or.inl h
  | ⟨.add, .virt v⟩ => exact Or.inl h
  | ⟨.remove, .virt v⟩ => exact Or.inl h

theorem step_w_keys (c : Config) (s : RouterSt) (w : workItem) (u : String)
    (h : u ∈ keysA (processWorkItem c s w).1.wildcards) :
    u ∈ keysA s.wildcards ∨ u ∈ wildAddURIs [w] := by
  match w with
  | ⟨.add, .pool p⟩ =>
      have hw : (processWorkItem c s ⟨.add, .pool p⟩).1 = (processPoolAdd c s p).1 := rfl
      rw [hw] at h
      cases hm : lookupA s.m p.name with
      | some pool =>
          by_cases he : p.endpoint ∈ pool.item.backend.poolMemberAddrs
          · rw [processPoolAdd_dup c s p pool hm he] at h
            exact Or.inl h
          · rw [processPoolAdd_append c s p pool hm he] at h
            exact Or.inl h
      | none =>
          cases hr : makeRouteRule c p with
          | none =>
              rw [processPoolAdd_new_none c s p hm hr] at h
              exact Or.inl h
          | some rl =>
              cases hwild : p.wildcard with
              | false =>
                  rw [processPoolAdd_new_exact c s p rl hm hr hwild] at h
                  exact Or.inl h
              | true =>
                  rw [processPoolAdd_new_wild c s p rl hm hr hwild] at h
                  have h' : u ∈ keysA (insertA s.wildcards p.uri rl) := h
                  rcases mem_keysA_insertA s.wildcards p.uri u rl h' with h1 | h1
                  · right
                    subst h1
                    simp [wildAddURIs, hwild]
                  · exact Or.inl h1
  | ⟨.remove, .pool p⟩ =>
      have hw : (processWorkItem c s ⟨.remove, .pool p⟩).1 = (processPoolRemove s p).1 := rfl
      rw [hw] at h
      cases hm : lookupA s.m p.name with
      | none =>
          rw [processPoolRemove_none s p hm] at h
          exact Or.inl h
      | some pool =>
          by_cases hlen :
            (eraseFirstStr pool.item.backend.poolMemberAddrs p.endpoint).length = 0
          · cases hwild : p.wildcard with
            | false =>
                rw [processPoolRemove_empty_exact s p pool hm hlen hwild] at h
                exact Or.inl h
            | true =>
                rw [processPoolRemove_empty_wild s p pool hm hlen hwild] at h
                have h' : u ∈ keysA (eraseA s.wildcards p.uri) := h
                exact Or.inl (mem_keysA_eraseA s.wildcards p.uri u h')
          · rw [processPoolRemove_nonempty s p pool hm hlen] at h
            exact Or.inl h
  | ⟨.add, .virt v⟩ => exact Or.inl h
  | ⟨.remove, .virt v⟩ => exact Or.inl h

theorem runItems_keys_sub (c : Config) (ws : List workItem) :
    ∀ s : RouterSt,
      (∀ u, u ∈ keysA (runItems c s ws).r → u ∈ keysA s.r ∨ u ∈ exactAddURIs ws) ∧
      (∀ u, u ∈ keysA (runItems c s ws).wildcards →
        u ∈ keysA s.wildcards ∨ u ∈ wildAddURIs ws) := by
  induction ws with
  | nil =>
      intro s
      exact ⟨fun u h => Or.inl h, fun u h => Or.inl h⟩
  | cons w ws ih =>
      intro s
      constructor
      · intro u h
        have h0 : u ∈ keysA (runItems c (processWorkItem c s w).1 ws).r := h
        rcases (ih _).1 u h0 with h1 | h1
        · rcases step_r_keys c s w u h1 with h2 | h2
          · exact Or.inl h2
          · right
            rw [exactAddURIs_cons]
            exact List.mem_append.mpr (Or.inl h2)
        · right
          rw [exactAddURIs_cons]
          exact List.mem_append.mpr (Or.inr h1)
      · intro u h
        have h0 : u ∈ keysA (runItems c (processWorkItem c s w).1 ws).wildcards := h
        rcases (ih _).2 u h0 with h1 | h1
        · rcases step_w_keys c s w u h1 with h2 | h2
          · exact Or.inl h2
          · right
            rw [wildAddURIs_cons]
            exact List.mem_append.mpr (Or.inl h2)
        · right
          rw [wildAddURIs_cons]
          exact List.mem_append.mpr (Or.inr h1)

/-- C4 counterexample: starting from empty indices, the wildcard call
`UpdatePool("*.a.x", e)` (which strips to URI `a.x`) followed by the
exact call `UpdatePool("a.x", e)` leaves the URI `a.x` as a key of both
`rules` and `wildcardRules`: the two pools have different names, so the
exact add does not find the wildcard's pool and inserts its own rule. -/
theorem c4_counterexample :
    UpdatePoolEndpoints "*.a.x" "10.0.0.1:80" = some c4WildAddItem ∧
    UpdatePoolEndpoints "a.x" "10.0.0.1:80" = some c4ExactAddItem ∧
    "a.x" ∈ keysA (runItems cfg0 emptySt [c4WildAddItem, c4ExactAddItem]).r ∧
    "a.x" ∈ keysA (runItems cfg0 emptySt [c4WildAddItem, c4ExactAddItem]).wildcards := by
  decide

/-- C4 amended: starting from empty indices, after any sequence of work
items in which no URI occurs both as the URI of an exact add item and as
the (already `*.`-stripped) URI of a wildcard add item, the key sets of
`rules` and `wildcardRules` are disjoint.  Without that restriction the
claim fails: a wildcard call on `*.u` and an exact call on `u` put `u`
in both indices (see the counterexample). -/
theorem c4_amended (c : Config) (ws : List workItem)
    (hdisj : ∀ u, u ∈ exactAddURIs ws → u ∉ wildAddURIs ws) :
    ∀ u, u ∈ keysA (runItems c emptySt ws).r →
      u ∉ keysA (runItems c emptySt ws).wildcards := by
  intro u hu hwu
  rcases (runItems_keys_sub c ws emptySt).1 u hu with h1 | h1
  · simp [emptySt, keysA] at h1
  · rcases (runItems_keys_sub c ws emptySt).2 u hwu with h2 | h2
    · simp [emptySt, keysA] at h2
    · exact hdisj u h1 h2

/-- C4 witness: a single exact add trace satisfies the hypothesis, and
its inserted URI is a key of `rules` and not of `wildcardRules`. -/
theorem c4_witness :
    "e.x" ∈ keysA (runItems cfg0 emptySt c4WList).r ∧
    "e.x" ∉ keysA (runItems cfg0 emptySt c4WList).wildcards :=
  ⟨by decide,
    c4_amended cfg0 c4WList
      (by
        intro u hu
        rw [show wildAddURIs c4WList = [] from rfl]
        simp)
      "e.x" (by decide)⟩

/-! # Sorting and ordinal-assignment lemmas (policy assembly) -/

theorem charsLe_total (a b : List Char) : charsLe a b = true ∨ charsLe b a = true := by
  induction a generalizing b with
  | nil => left; rfl
  | cons x xs ih =>
      cases b with
      | nil => right; rfl
      | cons y ys =>
          by_cases h1 : x.toNat < y.toNat
          · left; simp [charsLe, h1]
          · by_cases h2 : y.toNat < x.toNat
            · right; simp [charsLe, h2]
            · rcases ih ys with h | h
              · left; simp [charsLe, h1, h2, h]
              · right; simp [charsLe, h1, h2, h]

theorem charsLe_trans (a b c : List Char) (hab : charsLe a b = true)
    (hbc : charsLe b c = true) : charsLe a c = true := by
  induction a generalizing b c with
  | nil => rfl
  | cons x xs ih =>
      cases b with
      | nil => simp [charsLe] at hab
      | cons y ys =>
          cases c with
          | nil => simp [charsLe] at hbc
          | cons z zs =>
              by_cases hxy : x.toNat < y.toNat
              · by_cases hyz : y.toNat < z.toNat
                · have hxz : x.toNat < z.toNat := Nat.lt_trans hxy hyz
                  simp [charsLe, hxz]
                · by_cases hzy : z.toNat < y.toNat
                  · simp [charsLe, hyz, hzy] at hbc
                  · have hxz : x.toNat < z.toNat := by omega
                    simp [charsLe, hxz]
              · by_cases hyx : y.toNat < x.toNat
                · simp [charsLe, hxy, hyx] at hab
                · have hxs : charsLe xs ys = true := by
                    simpa [charsLe, hxy, hyx] using hab
                  by_cases hyz : y.toNat < z.toNat
                  · have hxz : x.toNat < z.toNat := by omega
                    simp [charsLe, hxz]
                  · by_cases hzy : z.toNat < y.toNat
                    · simp [charsLe, hyz, hzy] at hbc
                    · have hys : charsLe ys zs = true := by
                        simpa [charsLe, hyz, hzy] using hbc
                      have hxz1 : ¬x.toNat < z.toNat := by omega
                      have hxz2 : ¬z.toNat < x.toNat := by omega
                      simp [charsLe, hxz1, hxz2]
                      exact ih ys zs hxs hys

theorem strLe_total (a b : String) : strLe a b = true ∨ strLe b a = true :=
  charsLe_total a.data b.data

theorem strLe_trans (a b c : String) (hab : strLe a b = true)
    (hbc : strLe b c = true) : strLe a c = true :=
  charsLe_trans a.data b.data c.data hab hbc

theorem mem_insertDesc (a y : rule) (l : List rule) (h : y ∈ insertDesc a l) :
    y = a ∨ y ∈ l := by
  induction l with
  | nil =>
      simp only [insertDesc, List.mem_singleton] at h
      exact Or.inl h
  | cons b l ih =>
      simp only [insertDesc] at h
      by_cases hle : strLe b.fullURI a.fullURI = true
      · rw [if_pos hle] at h
        rcases List.mem_cons.mp h with h | h
        · exact Or.inl h
        · exact Or.inr h
      · rw [if_neg hle] at h
        rcases List.mem_cons.mp h with h | h
        · right; exact List.mem_cons.mpr (Or.inl h)
        · rcases ih h with h | h
          · exact Or.inl h
          · right; exact List.mem_cons.mpr (Or.inr h)

theorem pairwise_insertDesc (a : rule) (l : List rule)
    (h : List.Pairwise ruleGe l) : List.Pairwise ruleGe (insertDesc a l) := by
  induction l with
  | nil => simp [insertDesc]
  | cons b l ih =>
      rcases List.pairwise_cons.mp h with ⟨hb, hl⟩
      simp only [insertDesc]
      by_cases hle : strLe b.fullURI a.fullURI = true
      · rw [if_pos hle]
        refine List.pairwise_cons.mpr ⟨?_, h⟩
        intro y hy
        rcases List.mem_cons.mp hy with rfl | hy
        · exact hle
        · exact strLe_trans y.fullURI b.fullURI a.fullURI (hb y hy) hle
      · rw [if_neg hle]
        refine List.pairwise_cons.mpr ⟨?_, ih hl⟩
        intro y hy
        rcases mem_insertDesc a y l hy with rfl | hy
        · rcases strLe_total y.fullURI b.fullURI with h' | h'
          · exact h'
          · exact absurd h' hle
        · exact hb y hy

theorem perm_insertDesc (a : rule) (l : List rule) :
    List.Perm (insertDesc a l) (a :: l) := by
  induction l with
  | nil => exact List.Perm.refl _
  | cons b l ih =>
      simp only [insertDesc]
      by_cases hle : strLe b.fullURI a.fullURI = true
      · rw [if_pos hle]
      · rw [if_neg hle]
        exact List.Perm.trans (List.Perm.cons b ih) (List.Perm.swap a b l)

theorem sortRulesDesc_pairwise (l : List rule) :
    List.Pairwise ruleGe (sortRulesDesc l) := by
  induction l with
  | nil => simp [sortRulesDesc]
  | cons a l ih => exact pairwise_insertDesc a (sortRulesDesc l) ih

theorem sortRulesDesc_perm (l : List rule) :
    List.Perm (sortRulesDesc l) l := by
  induction l with
  | nil => exact List.Perm.refl _
  | cons a l ih =>
      exact List.Perm.trans (perm_insertDesc a (sortRulesDesc l))
        (List.Perm.cons a ih)

theorem sortRulesDesc_length (l : List rule) :
    (sortRulesDesc l).length = l.length :=
  (sortRulesDesc_perm l).length_eq

theorem assignOrdinals_length (b : Nat) (l : List rule) :
    (assignOrdinals b l).length = l.length := by
  induction l generalizing b with
  | nil => rfl
  | cons rl l ih => simp [assignOrdinals, ih]

theorem assignOrdinals_map_ordinal (b : Nat) (l : List rule) :
    (assignOrdinals b l).map (fun r => r.ordinal) = List.range' b l.length := by
  induction l generalizing b with
  | nil => rfl
  | cons rl l ih =>
      simp only [assignOrdinals, List.map_cons, List.length_cons, List.range'_succ, ih]

theorem assignOrdinals_map_fullURI (b : Nat) (l : List rule) :
    (assignOrdinals b l).map (fun r => r.fullURI) = l.map (fun r => r.fullURI) := by
  induction l generalizing b with
  | nil => rfl
  | cons rl l ih => simp [assignOrdinals, ih]

theorem assignOrdinals_map_ruleShape (b : Nat) (l : List rule) :
    (assignOrdinals b l).map ruleShape = l.map ruleShape := by
  induction l generalizing b with
  | nil => rfl
  | cons rl l ih => simp [assignOrdinals, ruleShape, ih]

theorem mem_assignOrdinals_bounds (b : Nat) (l : List rule) (x : rule)
    (h : x ∈ assignOrdinals b l) : b ≤ x.ordinal ∧ x.ordinal < b + l.length := by
  induction l generalizing b with
  | nil => simp [assignOrdinals] at h
  | cons rl l ih =>
      simp only [assignOrdinals] at h
      rcases List.mem_cons.mp h with rfl | h
      · constructor
        · exact Nat.le_refl b
        · simp only [List.length_cons]
          omega
      · rcases ih (b + 1) h with ⟨h1, h2⟩
        simp only [List.length_cons]
        omega

theorem pairwise_ruleGe_transfer (l1 : List rule) :
    ∀ l2 : List rule,
      l1.map (fun r => r.fullURI) = l2.map (fun r => r.fullURI) →
      List.Pairwise ruleGe l1 → List.Pairwise ruleGe l2 := by
  induction l1 with
  | nil =>
      intro l2 hmap _
      cases l2 with
      | nil => simp
      | cons b t => simp at hmap
  | cons a t1 ih =>
      intro l2 hmap h
      cases l2 with
      | nil => simp at hmap
      | cons b t2 =>
          simp only [List.map_cons, List.cons.injEq] at hmap
          obtain ⟨hab, ht⟩ := hmap
          rcases List.pairwise_cons.mp h with ⟨ha, ht1⟩
          refine List.pairwise_cons.mpr ⟨?_, ih t2 ht ht1⟩
          intro y hy
          have hmem : y.fullURI ∈ t1.map (fun r => r.fullURI) := by
            rw [ht]
            exact List.mem_map_of_mem _ hy
          rcases List.mem_map.mp hmem with ⟨y1, hy1, hfy⟩
          have hge := ha y1 hy1
          show strLe y.fullURI b.fullURI = true
          rw [← hfy, ← hab]
          exact hge

theorem pairwise_ruleGe_assignOrdinals (b : Nat) (l : List rule)
    (h : List.Pairwise ruleGe l) : List.Pairwise ruleGe (assignOrdinals b l) :=
  pairwise_ruleGe_transfer l (assignOrdinals b l)
    (assignOrdinals_map_fullURI b l).symm h

theorem policy_exact_length (s : RouterSt) :
    (assignOrdinals 0 (sortRulesDesc (valuesA s.r))).length = s.r.length := by
  rw [assignOrdinals_length, sortRulesDesc_length]
  simp [valuesA]

theorem policy_rules_take (c : Config) (s : RouterSt) (pn : String) :
    (makeRoutePolicy c s pn).rules.take s.r.length =
      assignOrdinals 0 (sortRulesDesc (valuesA s.r)) := by
  show (assignOrdinals 0 (sortRulesDesc (valuesA s.r)) ++
    assignOrdinals s.m.length (sortRulesDesc (valuesA s.wildcards))).take s.r.length = _
  rw [← policy_exact_length s, List.take_left]

theorem policy_rules_drop (c : Config) (s : RouterSt) (pn : String) :
    (makeRoutePolicy c s pn).rules.drop s.r.length =
      assignOrdinals s.m.length (sortRulesDesc (valuesA s.wildcards)) := by
  show (assignOrdinals 0 (sortRulesDesc (valuesA s.r)) ++
    assignOrdinals s.m.length (sortRulesDesc (valuesA s.wildcards))).drop s.r.length = _
  rw [← policy_exact_length s, List.drop_left]

/-! # Claim C5: exact ordinals below wildcard ordinals -/

/-- C5 counterexample: a state reachable through the public intake
(two exact adds, one wildcard add, then two `RemoveVirtualServer` calls
whose names coincide with the exact pools' derived names) has two exact
rules but one pool record; the assembled policy gives the exact rule
`a.x` ordinal 1 and the wildcard rule `z` ordinal `len(pools) = 1`, so
an exact ordinal is not below a wildcard ordinal. -/
theorem c5_counterexample :
    UpdatePoolEndpoints "a.x" "10.0.0.1:1" = some c5ItemA ∧
    UpdatePoolEndpoints "b.x" "10.0.0.1:1" = some c5ItemB ∧
    UpdatePoolEndpoints "*.z" "10.0.0.1:1" = some c5ItemW ∧
    c5St.m.length = 1 ∧
    (makeRoutePolicy cfg0 c5St "cf-routing-policy").rules.map
      (fun r => (r.fullURI, r.ordinal)) = [("b.x", 0), ("a.x", 1), ("z", 1)] ∧
    ¬(∀ a ∈ (makeRoutePolicy cfg0 c5St "cf-routing-policy").rules.take c5St.r.length,
      ∀ b ∈ (makeRoutePolicy cfg0 c5St "cf-routing-policy").rules.drop c5St.r.length,
      a.ordinal < b.ordinal) := by
  decide

/-- C5 amended: whenever the number of exact rules does not exceed the
number of pool records (an inequality that pool operations alone
maintain, but that virtual-server removals or truncated-hash collisions
can break), every rule in the exact segment of the assembled policy has
an ordinal strictly below that of every rule in the wildcard segment. -/
theorem c5_amended (c : Config) (s : RouterSt) (pn : String)
    (hle : s.r.length ≤ s.m.length) :
    ∀ a ∈ (makeRoutePolicy c s pn).rules.take s.r.length,
    ∀ b ∈ (makeRoutePolicy c s pn).rules.drop s.r.length,
    a.ordinal < b.ordinal := by
  intro a ha b hb
  rw [policy_rules_take c s pn] at ha
  rw [policy_rules_drop c s pn] at hb
  have hA := mem_assignOrdinals_bounds 0 _ a ha
  have hB := mem_assignOrdinals_bounds s.m.length _ b hb
  have hlen : (sortRulesDesc (valuesA s.r)).length = s.r.length := by
    rw [sortRulesDesc_length]
    simp [valuesA]
  rw [hlen] at hA
  omega

/-- C5 witness: the amended bound applied to a concrete state with one
exact rule, one wildcard rule and two pool records. -/
theorem c5_witness :
    c5WSt.r.length ≤ c5WSt.m.length ∧
    c5WRuleA ∈ (makeRoutePolicy cfg0 c5WSt "p").rules.take c5WSt.r.length ∧
    (⟨"z", [], [], "nz", 2⟩ : rule) ∈
      (makeRoutePolicy cfg0 c5WSt "p").rules.drop c5WSt.r.length ∧
    c5WRuleA.ordinal < (⟨"z", [], [], "nz", 2⟩ : rule).ordinal :=
  ⟨by decide, by decide, by decide,
    c5_amended cfg0 c5WSt "p" (by decide) c5WRuleA (by decide)
      ⟨"z", [], [], "nz", 2⟩ (by decide)⟩

/-! # Claim C6: full shape of the assembled policy rule list -/

/-- C6: the assembled policy's rule list carries ordinals forming the
contiguous range `0, …, |rules|-1` followed by
`|pools|, …, |pools|+|wildcardRules|-1`; its first `|rules|` elements
are the exact-index rules and its remainder the wildcard-index rules
(up to the ordinal field), each segment sorted by `FullURI` in
descending (reverse lexicographic) order. -/
theorem c6_policy_shape (c : Config) (s : RouterSt) (pn : String) :
    (makeRoutePolicy c s pn).rules.map (fun r => r.ordinal) =
      List.range' 0 s.r.length ++ List.range' s.m.length s.wildcards.length ∧
    List.Pairwise ruleGe ((makeRoutePolicy c s pn).rules.take s.r.length) ∧
    List.Pairwise ruleGe ((makeRoutePolicy c s pn).rules.drop s.r.length) ∧
    List.Perm (((makeRoutePolicy c s pn).rules.take s.r.length).map ruleShape)
      ((valuesA s.r).map ruleShape) ∧
    List.Perm (((makeRoutePolicy c s pn).rules.drop s.r.length).map ruleShape)
      ((valuesA s.wildcards).map ruleShape) := by
  have hlenE : (sortRulesDesc (valuesA s.r)).length = s.r.length := by
    rw [sortRulesDesc_length]; simp [valuesA]
  have hlenW : (sortRulesDesc (valuesA s.wildcards)).length = s.wildcards.length := by
    rw [sortRulesDesc_length]; simp [valuesA]
  refine ⟨?_, ?_, ?_, ?_, ?_⟩
  · show (assignOrdinals 0 (sortRulesDesc (valuesA s.r)) ++
      assignOrdinals s.m.length (sortRulesDesc (valuesA s.wildcards))).map
        (fun r => r.ordinal) = _
    rw [List.map_append, assignOrdinals_map_ordinal, assignOrdinals_map_ordinal,
      hlenE, hlenW]
  · rw [policy_rules_take c s pn]
    exact pairwise_ruleGe_assignOrdinals 0 _ (sortRulesDesc_pairwise _)
  · rw [policy_rules_drop c s pn]
    exact pairwise_ruleGe_assignOrdinals s.m.length _ (sortRulesDesc_pairwise _)
  · rw [policy_rules_take c s pn, assignOrdinals_map_ruleShape]
    exact (sortRulesDesc_perm (valuesA s.r)).map ruleShape
  · rw [policy_rules_drop c s pn, assignOrdinals_map_ruleShape]
    exact (sortRulesDesc_perm (valuesA s.wildcards)).map ruleShape

/-! # Claim C8: conditions built by the rule builder -/

theorem segConds_length (j : Nat) (segs : List String) :
    (segConds j segs).length = segs.length := by
  induction segs generalizing j with
  | nil => rfl
  | cons v rest ih => simp [segConds, ih]

theorem segConds_getElem (segs : List String) :
    ∀ j i seg, segs[i]? = some seg →
      (segConds j segs)[i]? = some (mkSegCond (j + i + 1) seg) := by
  induction segs with
  | nil =>
      intro j i seg h
      simp at h
  | cons v rest ih =>
      intro j i seg h
      cases i with
      | zero =>
          simp only [List.getElem?_cons_zero, Option.some.injEq] at h
          subst h
          simp [segConds]
      | succ k =>
          simp only [List.getElem?_cons_succ] at h
          rw [show segConds j (v :: rest) =
            mkSegCond (j + 1) v :: segConds (j + 1) rest from rfl]
          rw [List.getElem?_cons_succ]
          rw [ih (j + 1) k seg h]
          rw [show j + 1 + k + 1 = j + (k + 1) + 1 from by omega]

/-- C8: whenever the normalized URI parses, the rule builder succeeds;
for a wildcard pool the conditions are exactly one host/ends-with
condition at index 0 named `"0"` holding the parsed host, and for a
non-wildcard pool they are one host/equals condition at index 0 named
`"0"` holding the parsed host followed by exactly one
http-uri/path-segment/equals condition per path segment, segment `i`
(0-based) at index `i + 1` named `toString (i + 1)` holding that
segment. -/
theorem c8_rule_conditions (c : Config) (p : poolData) (pu : parsedURL)
    (hp : urlParse (trimSuffixSlash ("scheme://" ++ p.uri)) = some pu) :
    ∃ rl, makeRouteRule c p = some rl ∧
      (p.wildcard = true → rl.conditions =
        [{ equals := false, endsWith := true, host := true, httpHost := true,
           httpUri := false, pathSegment := false, request := true,
           name := "0", index := 0, values := [pu.host] }]) ∧
      (p.wildcard = false →
        rl.conditions.length = 1 + (segmentsOfPath pu.path).length ∧
        rl.conditions[0]? = some
          { equals := true, endsWith := false, host := true, httpHost := true,
            httpUri := false, pathSegment := false, request := true,
            name := "0", index := 0, values := [pu.host] } ∧
        ∀ i seg, (segmentsOfPath pu.path)[i]? = some seg →
          rl.conditions[i + 1]? = some
            { equals := true, endsWith := false, host := false, httpHost := false,
              httpUri := true, pathSegment := true, request := true,
              name := toString (i + 1), index := i + 1, values := [seg] }) := by
  unfold makeRouteRule
  rw [hp]
  simp only [Option.map_some']
  refine ⟨_, rfl, ?_, ?_⟩
  · intro hw
    simp only [hw, if_pos]
    rfl
  · intro hw
    simp only [hw, Bool.false_eq_true, if_neg, not_false_eq_true]
    refine ⟨?_, ?_, ?_⟩
    · show (hostEqCond pu.host :: segConds 0 (segmentsOfPath pu.path)).length = _
      rw [List.length_cons, segConds_length]
      omega
    · show (hostEqCond pu.host :: segConds 0 (segmentsOfPath pu.path))[0]? = _
      rw [List.getElem?_cons_zero]
      rfl
    · intro i seg hseg
      show (hostEqCond pu.host :: segConds 0 (segmentsOfPath pu.path))[i + 1]? = _
      rw [List.getElem?_cons_succ]
      rw [segConds_getElem (segmentsOfPath pu.path) 0 i seg hseg]
      rw [show 0 + i + 1 = i + 1 from by omega]
      rfl

/-- C8 witness: the rule built for `a.x/api/v1` parses to host `a.x`
with path `/api/v1` and carries one host condition plus two path-segment
conditions. -/
theorem c8_witness :
    urlParse (trimSuffixSlash ("scheme://" ++ c8Pool.uri)) =
      some ⟨"a.x", "/api/v1"⟩ ∧
    ∃ rl, makeRouteRule cfg0 c8Pool = some rl ∧
      rl.conditions.length = 1 + (segmentsOfPath "/api/v1").length :=
  ⟨by decide, by
    obtain ⟨rl, hrl, _, hnw⟩ :=
      c8_rule_conditions cfg0 c8Pool ⟨"a.x", "/api/v1"⟩ (by decide)
    exact ⟨rl, hrl, (hnw rfl).1⟩⟩
